import Mathlib

/-!
Verification development for a monoalphabetic-substitution-cipher solver:
a bigram language model with Laplace smoothing (`language_model.py`),
a permutation cipher key with neighbor generation and energy scoring
(`permutation.py`), and a simulated-annealing search loop
(`simulated_annealing.py`).  Python dictionaries with a fixed key set are
embedded as Lean functions, the random draws of the search are made explicit
inputs, and floating-point arithmetic is embedded as exact real arithmetic.
-/

/-- Fixed alphabet Σ of the system: the 26 lowercase letters plus twelve
punctuation and whitespace characters (source: `KNOWN_CHARACTERS` in
`language_model.py`). -/
def KNOWN_CHARACTERS : List Char :=
  ['a', 'b', 'c', 'd', 'e', 'f', 'g', 'h', 'i', 'j', 'k', 'l', 'm',
   'n', 'o', 'p', 'q', 'r', 's', 't', 'u', 'v', 'w', 'x', 'y', 'z',
   ',', '.', ':', '\n', '#', '(', ')', '!', '?', '\'', '"', ' ']

/-- Frequency tally built by folding over a list, embedding the Python
pattern `cnt.setdefault(x, 0); cnt[x] = cnt[x] + 1` used by
`_gather_unigram_raw_count` and `_gather_bigram_raw_count`; a key absent
from the dictionary reads as 0 (`dict.get(k, 0)`). -/
def gatherCount {α : Type} [DecidableEq α] (l : List α) : α → ℕ :=
  l.foldl (fun m x => Function.update m x (m x + 1)) fun _ => 0

/-- Adjacent pairs of a list in reverse-adjacency order: the pair at
position `i ≥ 1` is `(l[i], l[i-1])`, i.e. (current, previous), exactly the
keys produced by the loop `for i in range(1, len(corpus))` in
`_gather_bigram_raw_count`. -/
def adjPairs {α : Type} (l : List α) : List (α × α) :=
  l.tail.zip l

/-- Trained language model state: the filtered corpus (supplied by the
out-of-scope `CorpusReader`) and the known-characters alphabet
(`LanguageModel.__init__`). All other fields of the Python class are
derived from these two. -/
structure LanguageModel where
  corpus : List Char
  known_chars : List Char

/-- Embeds `self._corpus_size = len(self._corpus)`. -/
def LanguageModel.corpus_size (M : LanguageModel) : ℕ :=
  M.corpus.length

/-- Embeds `self._vocabulary_size = len(known_characters)`: the size of the
fixed alphabet, not the number of distinct observed characters. -/
def LanguageModel.vocabulary_size (M : LanguageModel) : ℕ :=
  M.known_chars.length

/-- Embeds `self._unigram_cnt = self._gather_unigram_raw_count()` together
with the read `self._unigram_cnt.get(w, 0)`. -/
def LanguageModel.unigram_cnt (M : LanguageModel) : Char → ℕ :=
  gatherCount M.corpus

/-- Embeds `self._bigram_cnt = self._gather_bigram_raw_count()` together
with the read `self._bigram_cnt.get((w2, w1), 0)`: keys are the pairs
`(corpus[i], corpus[i-1])`. -/
def LanguageModel.bigram_cnt (M : LanguageModel) : Char × Char → ℕ :=
  gatherCount (adjPairs M.corpus)

/-- Embeds `LanguageModel._log_prob_of_w`:
`log2((c_w + 1) / (n + v))` with Laplace smoothing. -/
noncomputable def LanguageModel.log_prob_of_w (M : LanguageModel) (w : Char) : ℝ :=
  Real.logb 2 (((M.unigram_cnt w : ℝ) + 1) / ((M.corpus_size : ℝ) + (M.vocabulary_size : ℝ)))

/-- Embeds `LanguageModel._log_prob_of_w2_given_w1`: for `words = (w2, w1)`,
`log2((c_w2_then_w1 + 1) / (c_w1 + v))`, the conditioning denominator using
the raw unigram count of the previous character `w1 = words.2`. -/
noncomputable def LanguageModel.log_prob_of_w2_given_w1 (M : LanguageModel)
    (words : Char × Char) : ℝ :=
  Real.logb 2 (((M.bigram_cnt words : ℝ) + 1) / ((M.unigram_cnt words.2 : ℝ) + (M.vocabulary_size : ℝ)))

/-- Embeds the cache `self._mle_unigram = self._calc_mle(self._unigram_cnt,
self._log_prob_of_w)`: a dictionary whose keys are the distinct characters
of the corpus (the keys of `_unigram_cnt`), queried with `.get`. -/
noncomputable def LanguageModel.mle_unigram (M : LanguageModel) (w : Char) : Option ℝ :=
  if w ∈ M.corpus then some (M.log_prob_of_w w) else none

/-- Embeds the cache `self._mle_bigram = self._calc_mle(self._bigram_cnt,
self._log_prob_of_w2_given_w1)`: keys are the adjacent pairs occurring in
the corpus (the keys of `_bigram_cnt`). -/
noncomputable def LanguageModel.mle_bigram (M : LanguageModel) (words : Char × Char) : Option ℝ :=
  if words ∈ adjPairs M.corpus then some (M.log_prob_of_w2_given_w1 words) else none

/-- Embeds `LanguageModel.get_mle_unigram`: cached value when present,
otherwise the on-demand fallback `self._log_prob_of_w(w)`. -/
noncomputable def LanguageModel.get_mle_unigram (M : LanguageModel) (w : Char) : ℝ :=
  (M.mle_unigram w).getD (M.log_prob_of_w w)

/-- Embeds `LanguageModel.get_mle_bigram`: cached value when present,
otherwise the on-demand fallback `self._log_prob_of_w2_given_w1(words)`. -/
noncomputable def LanguageModel.get_mle_bigram (M : LanguageModel) (words : Char × Char) : ℝ :=
  (M.mle_bigram words).getD (M.log_prob_of_w2_given_w1 words)

/-- Substitution key (`Permutation` in `permutation.py`): a Python
dictionary whose key set is always Σ (`KNOWN_CHARACTERS`); `perm` is its
lookup function, so only values at characters of Σ are ever read through
the dictionary. -/
structure Permutation where
  perm : Char → Char

/-- Embeds `Permutation._DEFAULT_PERM = {i: i for i in KNOWN_CHARACTERS}`,
the identity mapping used by the no-argument constructor. -/
def defaultPerm : Permutation :=
  ⟨fun c => c⟩

/-- Embeds `Permutation._swap`: copy the mapping, then
`update({key1: old[key2], key2: old[key1]})`; with equal keys the later
`key2` entry wins, leaving the mapping unchanged. -/
def Permutation.swap (p : Permutation) (key1 key2 : Char) : Char → Char :=
  Function.update (Function.update p.perm key1 (p.perm key2)) key2 (p.perm key1)

/-- Embeds `Permutation.get_neighbor`; the two randomly drawn keys
(`random.choice` over the dictionary keys, i.e. over Σ) are explicit
arguments. -/
def Permutation.get_neighbor (p : Permutation) (key1 key2 : Char) : Permutation :=
  ⟨p.swap key1 key2⟩

/-- Embeds `Permutation.translate`: each character is replaced through the
dictionary with `self._perm.get(c, c)`; a character outside the key set Σ
passes through unchanged. -/
def Permutation.translate (p : Permutation) (s : List Char) : List Char :=
  s.map fun c => if c ∈ KNOWN_CHARACTERS then p.perm c else c

/-- Embeds the loop of `Permutation.get_energy` from index 1 on: starting
from a previous character, subtract nothing for an empty remainder, and for
`c :: cs` add `get_mle_bigram((c, prev))` and continue with `c` as the new
previous character.  `get_energy` subtracts this total. -/
noncomputable def bigramLoop (M : LanguageModel) : Char → List Char → ℝ
  | _, [] => 0
  | prev, c :: cs => M.get_mle_bigram (c, prev) + bigramLoop M c cs

/-- Embeds `Permutation.get_energy`: decode the message with `translate`,
then `energy = -get_mle_unigram(dec[0])` followed by
`energy -= get_mle_bigram((dec[i], dec[i-1]))` for `i = 1 .. len-1`.  On an
empty decoded message the Python code raises `IndexError` at `dec[0]`,
embedded as `none`. -/
noncomputable def Permutation.get_energy (p : Permutation) (enc_message : List Char)
    (M : LanguageModel) : Option ℝ :=
  match p.translate enc_message with
  | [] => none
  | w :: ws => some (-(M.get_mle_unigram w) - bigramLoop M w ws)

/-- Energy of an already decoded, possibly empty character list; on
nonempty input this is exactly the value inside `Permutation.get_energy`.
The `[]` case never arises in the running code (it would raise). -/
noncomputable def decEnergy (M : LanguageModel) : List Char → ℝ
  | [] => 0
  | w :: ws => -(M.get_mle_unigram w) - bigramLoop M w ws

/-- Total-valued energy used to state facts about the search loop:
`decEnergy` of the translated message.  Agrees with
`Permutation.get_energy` on every nonempty message (see
`get_energy_eq_energyVal`). -/
noncomputable def energyVal (p : Permutation) (enc_message : List Char)
    (M : LanguageModel) : ℝ :=
  decEnergy M (p.translate enc_message)

/-- Fold applying a finite sequence of neighbor moves (pairs of drawn keys)
starting from a given permutation. -/
def applyNeighbors (p : Permutation) (moves : List (Char × Char)) : Permutation :=
  moves.foldl (fun q m => q.get_neighbor m.1 m.2) p

/-- Embeds the acceptance probability computed inline in
`SimulatedAnnealing.run`: `p = 1 if delta < 0 else math.exp(-(delta / t))`. -/
noncomputable def accept_prob (delta t : ℝ) : ℝ :=
  if delta < 0 then 1 else Real.exp (-(delta / t))

/-- Embeds `SimulatedAnnealing._choose`; the uniform draw `r = random()` is
an explicit argument: return the new permutation iff `r < p`. -/
noncomputable def saChoose (old_perm new_perm : Permutation) (p r : ℝ) : Permutation :=
  if r < p then new_perm else old_perm

/-- One iteration of the `while` body of `SimulatedAnnealing.run` on the
state (current hypothesis, current temperature, iteration index): draw the
two neighbor keys and the acceptance draw from the stream at the current
index, build the neighbor, compute `delta` as the difference of the two
energies (`_get_delta`), compute the acceptance probability, choose, and
cool the temperature `t = t * cool_rate`. -/
noncomputable def saStep (M : LanguageModel) (msg : List Char) (rate : ℝ)
    (draws : ℕ → Char × Char × ℝ) (s : Permutation × ℝ × ℕ) : Permutation × ℝ × ℕ :=
  let d := draws s.2.2
  let new_h := s.1.get_neighbor d.1 d.2.1
  let delta := energyVal new_h msg M - energyVal s.1 msg M
  (saChoose s.1 new_h (accept_prob delta s.2.1) d.2.2, s.2.1 * rate, s.2.2 + 1)

/-- Number of executed iterations of `while t > threshold` with
`t = init * rate ^ k` before iteration `k`: the least `k` at which the
temperature has dropped to the threshold or below.  (When no such `k`
exists the Python loop does not terminate; the set is then empty and
`sInf` defaults to 0, a case excluded by the theorems' hypotheses.) -/
noncomputable def coolingSteps (init thr rate : ℝ) : ℕ :=
  sInf {k : ℕ | init * rate ^ k ≤ thr}

/-- Configuration of one call `SimulatedAnnealing(init, thr, rate).run(h0,
msg, M)` together with the explicit stream of per-iteration random draws
(neighbor key 1, neighbor key 2, acceptance draw). -/
structure SAConfig where
  M : LanguageModel
  msg : List Char
  init : ℝ
  thr : ℝ
  rate : ℝ
  h0 : Permutation
  draws : ℕ → Char × Char × ℝ

/-- Loop state after `i` iterations of the `run` loop. -/
noncomputable def SAConfig.state (c : SAConfig) (i : ℕ) : Permutation × ℝ × ℕ :=
  (saStep c.M c.msg c.rate c.draws)^[i] (c.h0, c.init, 0)

/-- Current hypothesis `h` after `i` iterations. -/
noncomputable def SAConfig.hyp (c : SAConfig) (i : ℕ) : Permutation :=
  (c.state i).1

/-- Current temperature `t` after `i` iterations. -/
noncomputable def SAConfig.temp (c : SAConfig) (i : ℕ) : ℝ :=
  (c.state i).2.1

/-- Energy difference `_get_delta(h, h.get_neighbor(), msg, M)` of the
neighbor proposed at iteration `i`. -/
noncomputable def SAConfig.delta (c : SAConfig) (i : ℕ) : ℝ :=
  energyVal ((c.hyp i).get_neighbor (c.draws i).1 (c.draws i).2.1) c.msg c.M -
    energyVal (c.hyp i) c.msg c.M

/-- Number of iterations the loop of this configuration executes. -/
noncomputable def SAConfig.steps (c : SAConfig) : ℕ :=
  coolingSteps c.init c.thr c.rate

/-- Embeds `SimulatedAnnealing.run`: the hypothesis held when the cooling
loop exits. -/
noncomputable def SAConfig.run (c : SAConfig) : Permutation :=
  (c.state c.steps).1

/-- Example model trained on the two-character corpus `ab` over Σ. -/
def LMab : LanguageModel :=
  ⟨['a', 'b'], KNOWN_CHARACTERS⟩

/-- Example model trained on the corpus `aa` over Σ. -/
def LMaa : LanguageModel :=
  ⟨['a', 'a'], KNOWN_CHARACTERS⟩

/-- Example model trained on the corpus `bb` over Σ. -/
def LMbb : LanguageModel :=
  ⟨['b', 'b'], KNOWN_CHARACTERS⟩

/-- Example permutation acting as the 3-cycle a ↦ b ↦ c ↦ a and fixing
every other character. -/
def cycPerm : Permutation :=
  ⟨fun c => if c = 'a' then 'b' else if c = 'b' then 'c' else if c = 'c' then 'a' else c⟩

/-- Annealing configuration for the worse-than-start run: one iteration
(initial temperature 2, threshold 1, cooling rate 1/2), identity start,
message `a`, model `LMaa`, and every draw proposing to swap the images of
`a` and `b` with acceptance draw 0. -/
noncomputable def cfgWorse : SAConfig :=
  ⟨LMaa, ['a'], 2, 1, 1 / 2, defaultPerm, fun _ => ('a', 'b', 0)⟩

/-- Degenerate annealing configuration whose loop executes zero iterations
(initial temperature 1 is already at or below the threshold 2). -/
noncomputable def cfgZero : SAConfig :=
  ⟨LMab, ['a'], 1, 2, 1 / 2, defaultPerm, fun _ => ('a', 'a', 1)⟩


/-- Folding the tally step over a list starting from any accumulator adds
the number of occurrences in the list. -/
lemma gatherCount_go {α : Type} [DecidableEq α] [BEq α] [LawfulBEq α]
    (l : List α) (m : α → ℕ) (a : α) :
    l.foldl (fun m x => Function.update m x (m x + 1)) m a = m a + l.count a := by
  induction l generalizing m with
  | nil => simp
  | cons x xs ih =>
    rw [List.foldl_cons, ih, List.count_cons]
    rcases eq_or_ne x a with h | h
    · subst h
      rw [Function.update_same]
      simp only [beq_self_eq_true, if_true]
      omega
    · rw [Function.update_noteq (Ne.symm h)]
      have hb : (x == a) = false := beq_eq_false_iff_ne.mpr h
      rw [hb]
      simp

/-- Dictionary tally of a list agrees with `List.count`. -/
lemma gatherCount_eq_count {α : Type} [DecidableEq α] [BEq α] [LawfulBEq α]
    (l : List α) (a : α) :
    gatherCount l a = l.count a := by
  rw [gatherCount, gatherCount_go]
  exact Nat.zero_add _

/-- Unfolding of `adjPairs` on a list with at least two elements. -/
lemma adjPairs_cons_cons {α : Type} (c d : α) (l : List α) :
    adjPairs (c :: d :: l) = (d, c) :: adjPairs (d :: l) := rfl

/-- Occurrences of a pair among the adjacent pairs of a list are bounded by
the occurrences of its second (earlier) component in the list. -/
lemma count_adjPairs_le (l : List Char) (a b : Char) :
    (adjPairs l).count (a, b) ≤ l.count b := by
  induction l with
  | nil => simp [adjPairs]
  | cons c t ih =>
    cases t with
    | nil => simp [adjPairs]
    | cons d rest =>
      rw [adjPairs_cons_cons, List.count_cons, List.count_cons]
      rcases eq_or_ne ((d, c)) ((a, b)) with h | h
      · have hcb : c = b := congrArg Prod.snd h
        subst hcb
        rw [h]
        simp only [beq_self_eq_true, if_true]
        omega
      · have hne : ((d, c) == (a, b)) = false := beq_eq_false_iff_ne.mpr h
        rw [hne]
        rcases eq_or_ne c b with hcb | hcb
        · subst hcb
          simp only [beq_self_eq_true, if_true]
          simp
          omega
        · have hne2 : (c == b) = false := beq_eq_false_iff_ne.mpr hcb
          rw [hne2]
          simp
          omega

/-- Unigram count of the model is the plain occurrence count in the corpus. -/
lemma unigram_cnt_eq_count (M : LanguageModel) (w : Char) :
    M.unigram_cnt w = M.corpus.count w :=
  gatherCount_eq_count _ _

/-- Bigram count of the model is the occurrence count of the pair among the
adjacent (current, previous) pairs of the corpus. -/
lemma bigram_cnt_eq_count (M : LanguageModel) (ab : Char × Char) :
    M.bigram_cnt ab = (adjPairs M.corpus).count ab :=
  gatherCount_eq_count _ _

/-- Cached or not, the unigram query returns `_log_prob_of_w`. -/
lemma get_mle_unigram_eq (M : LanguageModel) (w : Char) :
    M.get_mle_unigram w = M.log_prob_of_w w := by
  rw [LanguageModel.get_mle_unigram, LanguageModel.mle_unigram]
  split <;> rfl

/-- Cached or not, the bigram query returns `_log_prob_of_w2_given_w1`. -/
lemma get_mle_bigram_eq (M : LanguageModel) (ab : Char × Char) :
    M.get_mle_bigram ab = M.log_prob_of_w2_given_w1 ab := by
  rw [LanguageModel.get_mle_bigram, LanguageModel.mle_bigram]
  split <;> rfl

/-- Bigram count of a pair never exceeds the raw unigram count of its
previous-character component. -/
lemma bigram_cnt_le_unigram_cnt (M : LanguageModel) (ab : Char × Char) :
    M.bigram_cnt ab ≤ M.unigram_cnt ab.2 := by
  obtain ⟨a, b⟩ := ab
  rw [bigram_cnt_eq_count, unigram_cnt_eq_count]
  exact count_adjPairs_le _ _ _

/-- Smoothed unigram log-probability is nonpositive when the alphabet is
nonempty. -/
lemma log_prob_of_w_nonpos (M : LanguageModel) (hv : M.known_chars ≠ []) (w : Char) :
    M.log_prob_of_w w ≤ 0 := by
  have hv1 : 0 < M.vocabulary_size := List.length_pos.mpr hv
  have hvr : (1 : ℝ) ≤ (M.vocabulary_size : ℝ) := by exact_mod_cast hv1
  have hcnt : M.unigram_cnt w ≤ M.corpus_size := by
    rw [unigram_cnt_eq_count]
    exact List.count_le_length _ _
  have hcntr : (M.unigram_cnt w : ℝ) ≤ (M.corpus_size : ℝ) := by exact_mod_cast hcnt
  have hden : (0 : ℝ) < (M.corpus_size : ℝ) + (M.vocabulary_size : ℝ) := by
    have : (0 : ℝ) ≤ (M.corpus_size : ℝ) := Nat.cast_nonneg _
    linarith
  apply Real.logb_nonpos one_lt_two
  · positivity
  · rw [div_le_one hden]
    linarith

/-- Smoothed bigram log-probability is nonpositive when the alphabet is
nonempty. -/
lemma log_prob_bigram_nonpos (M : LanguageModel) (hv : M.known_chars ≠ [])
    (ab : Char × Char) :
    M.log_prob_of_w2_given_w1 ab ≤ 0 := by
  have hv1 : 0 < M.vocabulary_size := List.length_pos.mpr hv
  have hvr : (1 : ℝ) ≤ (M.vocabulary_size : ℝ) := by exact_mod_cast hv1
  have hcnt : M.bigram_cnt ab ≤ M.unigram_cnt ab.2 := bigram_cnt_le_unigram_cnt M ab
  have hcntr : (M.bigram_cnt ab : ℝ) ≤ (M.unigram_cnt ab.2 : ℝ) := by exact_mod_cast hcnt
  have hden : (0 : ℝ) < (M.unigram_cnt ab.2 : ℝ) + (M.vocabulary_size : ℝ) := by
    have : (0 : ℝ) ≤ (M.unigram_cnt ab.2 : ℝ) := Nat.cast_nonneg _
    linarith
  apply Real.logb_nonpos one_lt_two
  · positivity
  · rw [div_le_one hden]
    linarith

/-- C7: for every trained model over a nonempty alphabet, every unigram
query `get_mle_unigram w` is nonpositive (and finite, being a real number),
and every bigram query `get_mle_bigram (a, b)` is nonpositive; this rests on
the bigram count of `(a, b)` never exceeding the unigram count of `b`
(`bigram_cnt_le_unigram_cnt`) and on `|Σ| ≥ 1`. -/
theorem mle_queries_nonpos (M : LanguageModel) (hv : M.known_chars ≠ []) :
    (∀ w : Char, M.get_mle_unigram w ≤ 0) ∧ ∀ a b : Char, M.get_mle_bigram (a, b) ≤ 0 := by
  constructor
  · intro w
    rw [get_mle_unigram_eq]
    exact log_prob_of_w_nonpos M hv w
  · intro a b
    rw [get_mle_bigram_eq]
    exact log_prob_bigram_nonpos M hv (a, b)

/-- Witness for `mle_queries_nonpos` at the model trained on corpus `ab`. -/
theorem mle_queries_nonpos_witness :
    LMab.known_chars ≠ [] ∧
      ((∀ w : Char, LMab.get_mle_unigram w ≤ 0) ∧
        ∀ a b : Char, LMab.get_mle_bigram (a, b) ≤ 0) :=
  ⟨by simp [LMab, KNOWN_CHARACTERS], mle_queries_nonpos LMab (by simp [LMab, KNOWN_CHARACTERS])⟩

/-- C2: the bigram query at `(current, previous)` returns
`log2((B + 1) / (U + |Σ|))` where `B` counts positions `i ≥ 1` of the corpus
with `corpus[i] = current` and `corpus[i-1] = previous` (the reverse-adjacency
key order) and `U` is the raw occurrence count of `previous`; and on the
corpus `ab` the tallied count of `('b', 'a')` is 1 while `('a', 'b')` has
count 0. -/
theorem bigram_query_formula (M : LanguageModel) (cur prev : Char) :
    M.get_mle_bigram (cur, prev) =
      Real.logb 2 ((((adjPairs M.corpus).count (cur, prev) : ℝ) + 1) /
        ((M.corpus.count prev : ℝ) + (M.known_chars.length : ℝ)))
  ∧ LMab.bigram_cnt ('b', 'a') = 1 ∧ LMab.bigram_cnt ('a', 'b') = 0 := by
  refine ⟨?_, ?_, ?_⟩
  · rw [get_mle_bigram_eq]
    simp only [LanguageModel.log_prob_of_w2_given_w1, LanguageModel.vocabulary_size,
      bigram_cnt_eq_count, unigram_cnt_eq_count]
  · rw [bigram_cnt_eq_count]
    decide
  · rw [bigram_cnt_eq_count]
    decide

/-- C3: the unigram query at any character `w`, cached or computed on
demand, returns `log2((count(w) + 1) / (corpus_size + vocabulary_size))`,
and for a character absent from the corpus this is exactly
`log2(1 / (corpus_size + vocabulary_size))`. -/
theorem unigram_query_formula (M : LanguageModel) (w : Char) :
    M.get_mle_unigram w =
      Real.logb 2 (((M.corpus.count w : ℝ) + 1) /
        ((M.corpus.length : ℝ) + (M.known_chars.length : ℝ)))
  ∧ (w ∉ M.corpus → M.get_mle_unigram w =
      Real.logb 2 (1 / ((M.corpus.length : ℝ) + (M.known_chars.length : ℝ)))) := by
  constructor
  · rw [get_mle_unigram_eq]
    simp only [LanguageModel.log_prob_of_w, LanguageModel.corpus_size,
      LanguageModel.vocabulary_size, unigram_cnt_eq_count]
  · intro hw
    rw [get_mle_unigram_eq]
    simp only [LanguageModel.log_prob_of_w, LanguageModel.corpus_size,
      LanguageModel.vocabulary_size, unigram_cnt_eq_count]
    rw [List.count_eq_zero.mpr hw]
    norm_num

/-- Witness for `unigram_query_formula` at the unseen character `z` of the
corpus `ab`. -/
theorem unigram_query_formula_witness :
    'z' ∉ LMab.corpus ∧ LMab.get_mle_unigram 'z' =
      Real.logb 2 (1 / ((LMab.corpus.length : ℝ) + (LMab.known_chars.length : ℝ))) :=
  ⟨by decide, (unigram_query_formula LMab 'z').2 (by decide)⟩

/-- Translation preserves (non-)emptiness: it maps character by character. -/
lemma translate_ne_nil (p : Permutation) {msg : List Char} (h : msg ≠ []) :
    p.translate msg ≠ [] := by
  simp [Permutation.translate, h]

/-- On a nonempty message, `get_energy` returns exactly the total-valued
energy `energyVal`. -/
lemma get_energy_eq_energyVal (p : Permutation) (msg : List Char) (M : LanguageModel)
    (h : msg ≠ []) :
    p.get_energy msg M = some (energyVal p msg M) := by
  rw [Permutation.get_energy, energyVal]
  cases hmsg : p.translate msg with
  | nil => exact absurd hmsg (translate_ne_nil p h)
  | cons w ws => rfl

/-- Each bigram contribution of the energy loop is nonpositive, so the whole
loop total is nonpositive (alphabet nonempty). -/
lemma bigramLoop_nonpos (M : LanguageModel) (hv : M.known_chars ≠ [])
    (prev : Char) (l : List Char) :
    bigramLoop M prev l ≤ 0 := by
  induction l generalizing prev with
  | nil => simp [bigramLoop]
  | cons c cs ih =>
    show M.get_mle_bigram (c, prev) + bigramLoop M c cs ≤ 0
    have h1 : M.get_mle_bigram (c, prev) ≤ 0 := by
      rw [get_mle_bigram_eq]
      exact log_prob_bigram_nonpos M hv _
    linarith [ih c]

/-- Decoded-sequence energy is nonnegative (alphabet nonempty). -/
lemma decEnergy_nonneg (M : LanguageModel) (hv : M.known_chars ≠ []) (l : List Char) :
    0 ≤ decEnergy M l := by
  cases l with
  | nil => simp [decEnergy]
  | cons w ws =>
    show 0 ≤ -(M.get_mle_unigram w) - bigramLoop M w ws
    have h1 : M.get_mle_unigram w ≤ 0 := by
      rw [get_mle_unigram_eq]
      exact log_prob_of_w_nonpos M hv w
    have h2 := bigramLoop_nonpos M hv w ws
    linarith

/-- The recursive bigram loop equals the position-indexed sum of bigram
log-probabilities over consecutive characters. -/
lemma bigramLoop_eq_sum (M : LanguageModel) (w : Char) (ws : List Char) :
    bigramLoop M w ws = ∑ i in Finset.range ws.length,
      M.get_mle_bigram ((w :: ws).getD (i + 1) ' ', (w :: ws).getD i ' ') := by
  induction ws generalizing w with
  | nil => simp [bigramLoop]
  | cons c cs ih =>
    show M.get_mle_bigram (c, w) + bigramLoop M c cs = _
    rw [ih c, List.length_cons, Finset.sum_range_succ']
    simp only [List.getD_cons_succ, List.getD_cons_zero]
    ring

/-- C1: on every nonempty ciphertext, `get_energy` equals the negated
unigram log-probability of the first decoded character minus the sum over
positions `i = 1 .. len-1` of the bigram log-probabilities
`get_mle_bigram (decoded[i], decoded[i-1])`, where `decoded` is the
translation of the ciphertext; and every returned energy is nonnegative
(alphabet nonempty). -/
theorem energy_formula_nonneg (p : Permutation) (M : LanguageModel) (msg : List Char)
    (hmsg : msg ≠ []) (hv : M.known_chars ≠ []) :
    p.get_energy msg M = some
      (-(M.get_mle_unigram ((p.translate msg).headI)) -
        ∑ i in Finset.range ((p.translate msg).length - 1),
          M.get_mle_bigram
            ((p.translate msg).getD (i + 1) ' ', (p.translate msg).getD i ' '))
  ∧ ∀ e : ℝ, p.get_energy msg M = some e → 0 ≤ e := by
  obtain ⟨w, ws, hws⟩ := List.exists_cons_of_ne_nil (translate_ne_nil p hmsg)
  constructor
  · have h1 : p.get_energy msg M = some (-(M.get_mle_unigram w) - bigramLoop M w ws) := by
      unfold Permutation.get_energy
      rw [hws]
    rw [h1, hws]
    simp only [List.headI, List.length_cons, Nat.add_sub_cancel]
    rw [bigramLoop_eq_sum]
  · intro e he
    rw [get_energy_eq_energyVal p msg M hmsg] at he
    have h2 : energyVal p msg M = e := Option.some.inj he
    subst h2
    exact decEnergy_nonneg M hv _

/-- Witness for `energy_formula_nonneg`: identity permutation, the model
trained on `ab`, and the ciphertext `ab`. -/
theorem energy_formula_nonneg_witness :
    (['a', 'b'] : List Char) ≠ [] ∧ LMab.known_chars ≠ [] ∧
    (defaultPerm.get_energy ['a', 'b'] LMab = some
      (-(LMab.get_mle_unigram ((defaultPerm.translate ['a', 'b']).headI)) -
        ∑ i in Finset.range ((defaultPerm.translate ['a', 'b']).length - 1),
          LMab.get_mle_bigram
            ((defaultPerm.translate ['a', 'b']).getD (i + 1) ' ',
              (defaultPerm.translate ['a', 'b']).getD i ' '))
    ∧ ∀ e : ℝ, defaultPerm.get_energy ['a', 'b'] LMab = some e → 0 ≤ e) :=
  ⟨by simp, by simp [LMab, KNOWN_CHARACTERS],
    energy_formula_nonneg defaultPerm LMab ['a', 'b'] (by simp)
      (by simp [LMab, KNOWN_CHARACTERS])⟩

/-- The swapped mapping is the original mapping composed with the
transposition of the two chosen keys. -/
lemma swap_eq_comp (p : Permutation) (k1 k2 : Char) :
    p.swap k1 k2 = p.perm ∘ (Equiv.swap k1 k2) := by
  funext c
  rw [Permutation.swap, Function.comp_apply, Equiv.swap_apply_def]
  rcases eq_or_ne c k2 with h2 | h2
  · subst h2
    rw [Function.update_same]
    rcases eq_or_ne c k1 with h1 | h1
    · subst h1
      simp
    · simp [h1]
  · rw [Function.update_noteq h2, Function.update_apply]
    rcases eq_or_ne c k1 with h1 | h1
    · subst h1
      simp
    · simp [h1, h2]

/-- A transposition of two members of a set is a bijection of that set onto
itself. -/
lemma bijOn_swap {S : Set Char} {k1 k2 : Char} (h1 : k1 ∈ S) (h2 : k2 ∈ S) :
    Set.BijOn (Equiv.swap k1 k2) S S := by
  have hmaps : Set.MapsTo (Equiv.swap k1 k2) S S := by
    intro x hx
    rw [Equiv.swap_apply_def]
    split_ifs <;> assumption
  refine ⟨hmaps, (Equiv.injective _).injOn, ?_⟩
  intro y hy
  exact ⟨Equiv.swap k1 k2 y, hmaps hy, Equiv.swap_apply_self k1 k2 y⟩

/-- One neighbor move with both keys in Σ preserves bijectivity on Σ. -/
lemma neighbor_preserves_bijOn (p : Permutation) (k1 k2 : Char)
    (hk1 : k1 ∈ KNOWN_CHARACTERS) (hk2 : k2 ∈ KNOWN_CHARACTERS)
    (hp : Set.BijOn p.perm {c | c ∈ KNOWN_CHARACTERS} {c | c ∈ KNOWN_CHARACTERS}) :
    Set.BijOn (p.get_neighbor k1 k2).perm
      {c | c ∈ KNOWN_CHARACTERS} {c | c ∈ KNOWN_CHARACTERS} := by
  have h : (p.get_neighbor k1 k2).perm = p.perm ∘ (Equiv.swap k1 k2) := swap_eq_comp p k1 k2
  rw [h]
  exact hp.comp (bijOn_swap hk1 hk2)

/-- A sequence of neighbor moves with keys in Σ preserves bijectivity on Σ. -/
lemma applyNeighbors_bijOn (moves : List (Char × Char)) :
    ∀ p : Permutation,
      Set.BijOn p.perm {c | c ∈ KNOWN_CHARACTERS} {c | c ∈ KNOWN_CHARACTERS} →
      (∀ m ∈ moves, m.1 ∈ KNOWN_CHARACTERS ∧ m.2 ∈ KNOWN_CHARACTERS) →
      Set.BijOn (applyNeighbors p moves).perm
        {c | c ∈ KNOWN_CHARACTERS} {c | c ∈ KNOWN_CHARACTERS} := by
  induction moves with
  | nil => intro p hp _; exact hp
  | cons m ms ih =>
    intro p hp hm
    have h1 := hm m (List.mem_cons_self m ms)
    exact ih (p.get_neighbor m.1 m.2)
      (neighbor_preserves_bijOn p m.1 m.2 h1.1 h1.2 hp)
      fun x hx => hm x (List.mem_cons_of_mem m hx)

/-- C5: starting from the identity permutation over Σ, applying any finite
sequence of neighbor moves whose drawn keys lie in Σ yields a mapping that
is a bijection of Σ onto itself; moreover drawing the same key twice
produces a permutation whose mapping is identical to the original. -/
theorem neighbor_bijectivity (moves : List (Char × Char))
    (hm : ∀ m ∈ moves, m.1 ∈ KNOWN_CHARACTERS ∧ m.2 ∈ KNOWN_CHARACTERS) :
    Set.BijOn (applyNeighbors defaultPerm moves).perm
      {c | c ∈ KNOWN_CHARACTERS} {c | c ∈ KNOWN_CHARACTERS}
  ∧ ∀ (p : Permutation) (k : Char), (p.get_neighbor k k).perm = p.perm := by
  constructor
  · exact applyNeighbors_bijOn moves defaultPerm (Set.bijOn_id _) hm
  · intro p k
    funext c
    show Function.update (Function.update p.perm k (p.perm k)) k (p.perm k) c = p.perm c
    rcases eq_or_ne c k with h | h
    · subst h
      rw [Function.update_same]
    · rw [Function.update_noteq h, Function.update_noteq h]

/-- Witness for `neighbor_bijectivity`: the single move swapping the images
of `a` and `b`. -/
theorem neighbor_bijectivity_witness :
    (∀ m ∈ ([('a', 'b')] : List (Char × Char)),
        m.1 ∈ KNOWN_CHARACTERS ∧ m.2 ∈ KNOWN_CHARACTERS) ∧
    (Set.BijOn (applyNeighbors defaultPerm [('a', 'b')]).perm
        {c | c ∈ KNOWN_CHARACTERS} {c | c ∈ KNOWN_CHARACTERS}
      ∧ ∀ (p : Permutation) (k : Char), (p.get_neighbor k k).perm = p.perm) :=
  ⟨by decide, neighbor_bijectivity [('a', 'b')] (by decide)⟩

/-- C9 (amended): swapping the images of two keys that do not themselves
appear in the ciphertext leaves the translation, and hence the energy,
unchanged. -/
theorem swap_unused_keys_energy (p : Permutation) (M : LanguageModel)
    (msg : List Char) (k1 k2 : Char) (h1 : k1 ∉ msg) (h2 : k2 ∉ msg) :
    (p.get_neighbor k1 k2).get_energy msg M = p.get_energy msg M := by
  have htr : (p.get_neighbor k1 k2).translate msg = p.translate msg := by
    rw [Permutation.translate, Permutation.translate]
    apply List.map_congr_left
    intro c hc
    have hc1 : c ≠ k1 := fun h => h1 (h ▸ hc)
    have hc2 : c ≠ k2 := fun h => h2 (h ▸ hc)
    by_cases hmem : c ∈ KNOWN_CHARACTERS
    · rw [if_pos hmem, if_pos hmem]
      show p.swap k1 k2 c = p.perm c
      rw [Permutation.swap, Function.update_noteq hc2, Function.update_noteq hc1]
    · rw [if_neg hmem, if_neg hmem]
  rw [Permutation.get_energy, Permutation.get_energy, htr]

/-- Witness for `swap_unused_keys_energy`: keys `a`, `b` and the message
`c` containing neither. -/
theorem swap_unused_keys_energy_witness :
    ('a' ∉ (['c'] : List Char)) ∧ ('b' ∉ (['c'] : List Char)) ∧
      (defaultPerm.get_neighbor 'a' 'b').get_energy ['c'] LMab =
        defaultPerm.get_energy ['c'] LMab :=
  ⟨by decide, by decide,
    swap_unused_keys_energy defaultPerm LMab ['c'] 'a' 'b' (by decide) (by decide)⟩

/-- Unigram query evaluated at concrete counts. -/
lemma get_mle_unigram_val (M : LanguageModel) (w : Char) (c n v : ℕ)
    (hc : M.corpus.count w = c) (hn : M.corpus.length = n)
    (hv : M.known_chars.length = v) :
    M.get_mle_unigram w = Real.logb 2 (((c : ℝ) + 1) / ((n : ℝ) + (v : ℝ))) := by
  rw [get_mle_unigram_eq, LanguageModel.log_prob_of_w, LanguageModel.corpus_size,
    LanguageModel.vocabulary_size, unigram_cnt_eq_count, hc, hn, hv]

/-- Bigram query evaluated at concrete counts. -/
lemma get_mle_bigram_val (M : LanguageModel) (ab : Char × Char) (c u v : ℕ)
    (hc : (adjPairs M.corpus).count ab = c) (hu : M.corpus.count ab.2 = u)
    (hv : M.known_chars.length = v) :
    M.get_mle_bigram ab = Real.logb 2 (((c : ℝ) + 1) / ((u : ℝ) + (v : ℝ))) := by
  rw [get_mle_bigram_eq, LanguageModel.log_prob_of_w2_given_w1,
    LanguageModel.vocabulary_size, bigram_cnt_eq_count, unigram_cnt_eq_count, hc, hu, hv]

/-- Counterexample to C9 as stated: under the 3-cycle permutation
a ↦ b ↦ c ↦ a, the images of the keys `a` and `b` (namely `b` and `c`) do
not appear in the ciphertext `aa`, yet swapping the images of `a` and `b`
changes the energy under the model trained on `bb`: the key `a` itself
occurs in the ciphertext, so the translation changes from `bb` to `cc`. -/
theorem swap_unused_images_cex :
    cycPerm.perm 'a' ∉ (['a', 'a'] : List Char) ∧
    cycPerm.perm 'b' ∉ (['a', 'a'] : List Char) ∧
    (cycPerm.get_neighbor 'a' 'b').get_energy ['a', 'a'] LMbb ≠
      cycPerm.get_energy ['a', 'a'] LMbb := by
  have hu_b : LMbb.get_mle_unigram 'b' = Real.logb 2 ((3 : ℝ) / 40) := by
    rw [get_mle_unigram_val LMbb 'b' 2 2 38 (by decide) (by decide) (by decide)]
    norm_num
  have hbg_bb : LMbb.get_mle_bigram ('b', 'b') = Real.logb 2 ((1 : ℝ) / 20) := by
    rw [get_mle_bigram_val LMbb ('b', 'b') 1 2 38 (by decide) (by decide) (by decide)]
    norm_num
  have hu_c : LMbb.get_mle_unigram 'c' = Real.logb 2 ((1 : ℝ) / 40) := by
    rw [get_mle_unigram_val LMbb 'c' 0 2 38 (by decide) (by decide) (by decide)]
    norm_num
  have hbg_cc : LMbb.get_mle_bigram ('c', 'c') = Real.logb 2 ((1 : ℝ) / 38) := by
    rw [get_mle_bigram_val LMbb ('c', 'c') 0 0 38 (by decide) (by decide) (by decide)]
    norm_num
  have h1 : cycPerm.get_energy ['a', 'a'] LMbb =
      some (-(Real.logb 2 ((3 : ℝ) / 40)) - Real.logb 2 ((1 : ℝ) / 20)) := by
    have htr : cycPerm.translate ['a', 'a'] = ['b', 'b'] := by decide
    unfold Permutation.get_energy
    rw [htr]
    simp [bigramLoop, hu_b, hbg_bb]
  have h2 : (cycPerm.get_neighbor 'a' 'b').get_energy ['a', 'a'] LMbb =
      some (-(Real.logb 2 ((1 : ℝ) / 40)) - Real.logb 2 ((1 : ℝ) / 38)) := by
    have htr : (cycPerm.get_neighbor 'a' 'b').translate ['a', 'a'] = ['c', 'c'] := by decide
    unfold Permutation.get_energy
    rw [htr]
    simp [bigramLoop, hu_c, hbg_cc]
  have hA : Real.logb 2 ((1 : ℝ) / 40) + Real.logb 2 ((1 : ℝ) / 38) =
      Real.logb 2 ((1 : ℝ) / 1520) := by
    rw [← Real.logb_mul (by norm_num) (by norm_num)]
    norm_num
  have hB : Real.logb 2 ((3 : ℝ) / 40) + Real.logb 2 ((1 : ℝ) / 20) =
      Real.logb 2 ((3 : ℝ) / 800) := by
    rw [← Real.logb_mul (by norm_num) (by norm_num)]
    norm_num
  have hC : Real.logb 2 ((1 : ℝ) / 1520) < Real.logb 2 ((3 : ℝ) / 800) :=
    Real.logb_lt_logb one_lt_two (by norm_num) (by norm_num)
  refine ⟨by decide, by decide, ?_⟩
  rw [h1, h2]
  intro heq
  have hv := Option.some.inj heq
  linarith

/-- C10: on every nonempty message, even one containing characters outside
Σ, the energy is defined (a real value is returned): translation maps each
character through the dictionary with pass-through for unknown characters,
and every smoothed probability ratio queried by the model is strictly
positive (alphabet nonempty), so its base-2 logarithm is finite. -/
theorem energy_total_defined (p : Permutation) (M : LanguageModel) (msg : List Char)
    (hmsg : msg ≠ []) (hv : M.known_chars ≠ []) :
    (∃ e : ℝ, p.get_energy msg M = some e)
  ∧ (∀ c : Char, c ∉ KNOWN_CHARACTERS → p.translate [c] = [c])
  ∧ (∀ s t : List Char, p.translate (s ++ t) = p.translate s ++ p.translate t)
  ∧ (∀ w : Char,
      0 < ((M.unigram_cnt w : ℝ) + 1) / ((M.corpus_size : ℝ) + (M.vocabulary_size : ℝ)))
  ∧ ∀ ab : Char × Char,
      0 < ((M.bigram_cnt ab : ℝ) + 1) /
        ((M.unigram_cnt ab.2 : ℝ) + (M.vocabulary_size : ℝ)) := by
  have hv1 : 0 < M.vocabulary_size := List.length_pos.mpr hv
  have hvr : (1 : ℝ) ≤ (M.vocabulary_size : ℝ) := by exact_mod_cast hv1
  refine ⟨⟨energyVal p msg M, get_energy_eq_energyVal p msg M hmsg⟩, ?_, ?_, ?_, ?_⟩
  · intro c hc
    simp [Permutation.translate, hc]
  · intro s t
    simp [Permutation.translate]
  · intro w
    apply div_pos
    · positivity
    · have : (0 : ℝ) ≤ (M.corpus_size : ℝ) := Nat.cast_nonneg _
      linarith
  · intro ab
    apply div_pos
    · positivity
    · have : (0 : ℝ) ≤ (M.unigram_cnt ab.2 : ℝ) := Nat.cast_nonneg _
      linarith

/-- Witness for `energy_total_defined`: a message starting with a digit,
which is outside Σ. -/
theorem energy_total_defined_witness :
    (['0', 'a'] : List Char) ≠ [] ∧ LMab.known_chars ≠ [] ∧
    ((∃ e : ℝ, defaultPerm.get_energy ['0', 'a'] LMab = some e)
  ∧ (∀ c : Char, c ∉ KNOWN_CHARACTERS → defaultPerm.translate [c] = [c])
  ∧ (∀ s t : List Char,
      defaultPerm.translate (s ++ t) = defaultPerm.translate s ++ defaultPerm.translate t)
  ∧ (∀ w : Char,
      0 < ((LMab.unigram_cnt w : ℝ) + 1) /
        ((LMab.corpus_size : ℝ) + (LMab.vocabulary_size : ℝ)))
  ∧ ∀ ab : Char × Char,
      0 < ((LMab.bigram_cnt ab : ℝ) + 1) /
        ((LMab.unigram_cnt ab.2 : ℝ) + (LMab.vocabulary_size : ℝ))) :=
  ⟨by simp, by simp [LMab, KNOWN_CHARACTERS],
    energy_total_defined defaultPerm LMab ['0', 'a'] (by simp)
      (by simp [LMab, KNOWN_CHARACTERS])⟩

/-- Temperature after `k` iterations of the cooling loop:
`init * rate ^ k`. -/
lemma iterate_temp (M : LanguageModel) (msg : List Char) (rate : ℝ)
    (draws : ℕ → Char × Char × ℝ) (h0 : Permutation) (init : ℝ) (k : ℕ) :
    ((saStep M msg rate draws)^[k] (h0, init, (0 : ℕ))).2.1 = init * rate ^ k := by
  induction k with
  | zero => simp
  | succ n ih =>
    rw [Function.iterate_succ_apply']
    show ((saStep M msg rate draws)^[n] (h0, init, (0 : ℕ))).2.1 * rate = init * rate ^ (n + 1)
    rw [ih, pow_succ, mul_assoc]

/-- Unfolding of the loop state by one iteration. -/
lemma state_succ (c : SAConfig) (n : ℕ) :
    c.state (n + 1) = saStep c.M c.msg c.rate c.draws (c.state n) := by
  rw [SAConfig.state, SAConfig.state, Function.iterate_succ_apply']

/-- Iteration index stored in the loop state after `k` iterations is `k`. -/
lemma state_idx (c : SAConfig) (k : ℕ) : (c.state k).2.2 = k := by
  induction k with
  | zero => rfl
  | succ n ih =>
    rw [state_succ]
    show (c.state n).2.2 + 1 = n + 1
    rw [ih]

/-- One iteration updates the current hypothesis by the Metropolis
choice between it and the proposed neighbor. -/
lemma hyp_succ (c : SAConfig) (n : ℕ) :
    c.hyp (n + 1) = saChoose (c.hyp n)
      ((c.hyp n).get_neighbor (c.draws n).1 (c.draws n).2.1)
      (accept_prob (c.delta n) (c.temp n)) ((c.draws n).2.2) := by
  rw [SAConfig.hyp, state_succ]
  show saChoose (c.state n).1
      ((c.state n).1.get_neighbor (c.draws (c.state n).2.2).1 (c.draws (c.state n).2.2).2.1)
      (accept_prob
        (energyVal ((c.state n).1.get_neighbor (c.draws (c.state n).2.2).1
            (c.draws (c.state n).2.2).2.1) c.msg c.M -
          energyVal (c.state n).1 c.msg c.M)
        (c.state n).2.1)
      (c.draws (c.state n).2.2).2.2 = _
  rw [state_idx]
  rfl

/-- Loop-exit characterization: for admissible parameters, the temperature
`init * rate ^ k` has dropped to the threshold exactly when `k` is at least
`log(thr/init) / log(rate)`. -/
lemma cooling_mem_iff (init thr rate : ℝ)
    (h1 : 0 < thr) (h2 : thr < init) (h3 : 0 < rate) (h4 : rate < 1) (k : ℕ) :
    init * rate ^ k ≤ thr ↔ Real.log (thr / init) / Real.log rate ≤ (k : ℝ) := by
  have hinit : 0 < init := lt_trans h1 h2
  have hpow : 0 < rate ^ k := pow_pos h3 k
  have hdiv : 0 < thr / init := div_pos h1 hinit
  have hlograte : Real.log rate < 0 := Real.log_neg h3 h4
  rw [← le_div_iff₀' hinit, ← Real.log_le_log_iff hpow hdiv, Real.log_pow,
    div_le_iff_of_neg' hlograte, mul_comm (Real.log rate) (k : ℝ)]

/-- The number of cooling iterations equals the ceiling of
`log(thr/init) / log(rate)`. -/
lemma coolingSteps_eq_ceil (init thr rate : ℝ)
    (h1 : 0 < thr) (h2 : thr < init) (h3 : 0 < rate) (h4 : rate < 1) :
    coolingSteps init thr rate = ⌈Real.log (thr / init) / Real.log rate⌉₊ := by
  have hSet : {k : ℕ | init * rate ^ k ≤ thr} =
      {k : ℕ | Real.log (thr / init) / Real.log rate ≤ (k : ℝ)} :=
    Set.ext fun k => cooling_mem_iff init thr rate h1 h2 h3 h4 k
  rw [coolingSteps, hSet]
  have hmem : Real.log (thr / init) / Real.log rate ≤
      ((⌈Real.log (thr / init) / Real.log rate⌉₊ : ℕ) : ℝ) := Nat.le_ceil _
  apply Nat.le_antisymm
  · exact Nat.sInf_le hmem
  · have hne : {k : ℕ | Real.log (thr / init) / Real.log rate ≤ (k : ℝ)}.Nonempty :=
      ⟨_, hmem⟩
    exact Nat.ceil_le.mpr (Nat.sInf_mem hne)

/-- With the concrete schedule 10, 0.1, 0.95 the loop runs exactly 90
iterations. -/
lemma coolingSteps_concrete : coolingSteps 10 (1 / 10) ((19 : ℝ) / 20) = 90 := by
  have key90 : (10 : ℝ) * ((19 / 20) ^ 90) ≤ 1 / 10 := by
    rw [div_pow, ← mul_div_assoc, div_le_div_iff₀ (by positivity) (by norm_num)]
    norm_num
  have key89 : (1 : ℝ) / 10 < 10 * ((19 / 20) ^ 89) := by
    rw [div_pow, ← mul_div_assoc, div_lt_div_iff₀ (by norm_num) (by positivity)]
    norm_num
  have hmem : (90 : ℕ) ∈ {k : ℕ | (10 : ℝ) * (19 / 20) ^ k ≤ 1 / 10} := key90
  apply Nat.le_antisymm
  · exact Nat.sInf_le hmem
  · have hlow : ∀ k ∈ {k : ℕ | (10 : ℝ) * (19 / 20) ^ k ≤ 1 / 10}, 90 ≤ k := by
      intro k hk
      by_contra hlt
      push_neg at hlt
      have h89 : ((19 : ℝ) / 20) ^ 89 ≤ (19 / 20) ^ k :=
        pow_le_pow_of_le_one (by norm_num) (by norm_num) (by omega)
      have hgt : (1 : ℝ) / 10 < 10 * ((19 / 20) ^ k) := by nlinarith
      have hle : (10 : ℝ) * (19 / 20) ^ k ≤ 1 / 10 := hk
      linarith
    exact hlow _ (Nat.sInf_mem ⟨90, hmem⟩)

/-- C6: for admissible parameters (positive threshold below the initial
temperature, cooling rate in (0,1)) the temperature before iteration `k` is
`init * rate ^ k`, it still exceeds the threshold at every iteration the
loop executes, drops to the threshold or below right after the last one,
and the number of executed iterations is exactly
`ceil(log(thr/init) / log(rate))`; with initial temperature 10, threshold
0.1 and cooling rate 0.95 the loop body executes exactly 90 times. -/
theorem cooling_termination (init thr rate : ℝ)
    (h1 : 0 < thr) (h2 : thr < init) (h3 : 0 < rate) (h4 : rate < 1) :
    (∀ (M : LanguageModel) (msg : List Char) (draws : ℕ → Char × Char × ℝ)
        (h0 : Permutation) (k : ℕ),
        ((saStep M msg rate draws)^[k] (h0, init, (0 : ℕ))).2.1 = init * rate ^ k)
  ∧ (∀ k < coolingSteps init thr rate, thr < init * rate ^ k)
  ∧ init * rate ^ (coolingSteps init thr rate) ≤ thr
  ∧ coolingSteps init thr rate = ⌈Real.log (thr / init) / Real.log rate⌉₊
  ∧ coolingSteps 10 (1 / 10) ((19 : ℝ) / 20) = 90 := by
  have hceil := coolingSteps_eq_ceil init thr rate h1 h2 h3 h4
  have hne : {k : ℕ | init * rate ^ k ≤ thr}.Nonempty := by
    refine ⟨⌈Real.log (thr / init) / Real.log rate⌉₊, ?_⟩
    show init * rate ^ (⌈Real.log (thr / init) / Real.log rate⌉₊ : ℕ) ≤ thr
    rw [cooling_mem_iff init thr rate h1 h2 h3 h4]
    exact Nat.le_ceil _
  refine ⟨fun M msg draws h0 k => iterate_temp M msg rate draws h0 init k, ?_, ?_, hceil,
    coolingSteps_concrete⟩
  · intro k hk
    have hnot := Nat.not_mem_of_lt_sInf (s := {k : ℕ | init * rate ^ k ≤ thr}) hk
    exact lt_of_not_le hnot
  · exact Nat.sInf_mem hne

/-- Witness for `cooling_termination` at the concrete schedule of the
claim. -/
theorem cooling_termination_witness :
    (0 : ℝ) < 1 / 10 ∧ (1 : ℝ) / 10 < 10 ∧ (0 : ℝ) < 19 / 20 ∧ (19 : ℝ) / 20 < 1 ∧
    ((∀ (M : LanguageModel) (msg : List Char) (draws : ℕ → Char × Char × ℝ)
        (h0 : Permutation) (k : ℕ),
        ((saStep M msg ((19 : ℝ) / 20) draws)^[k] (h0, (10 : ℝ), (0 : ℕ))).2.1 =
          10 * ((19 : ℝ) / 20) ^ k)
  ∧ (∀ k < coolingSteps 10 (1 / 10) ((19 : ℝ) / 20), (1 : ℝ) / 10 < 10 * ((19 : ℝ) / 20) ^ k)
  ∧ (10 : ℝ) * ((19 : ℝ) / 20) ^ (coolingSteps 10 (1 / 10) ((19 : ℝ) / 20)) ≤ 1 / 10
  ∧ coolingSteps 10 (1 / 10) ((19 : ℝ) / 20) =
      ⌈Real.log ((1 / 10) / 10) / Real.log ((19 : ℝ) / 20)⌉₊
  ∧ coolingSteps 10 (1 / 10) ((19 : ℝ) / 20) = 90) :=
  ⟨by norm_num, by norm_num, by norm_num, by norm_num,
    cooling_termination 10 (1 / 10) ((19 : ℝ) / 20)
      (by norm_num) (by norm_num) (by norm_num) (by norm_num)⟩

/-- C4: each iteration updates the hypothesis by the Metropolis choice; the
acceptance probability is 1 exactly when the energy delta is negative and
`exp(-delta/t)` otherwise; the neighbor replaces the current hypothesis iff
the fresh uniform draw `r` satisfies `r < p`; and a strictly improving move
is accepted for every draw `r` in `[0, 1)`. -/
theorem acceptance_rule (c : SAConfig) (i : ℕ) (delta t p r : ℝ)
    (old_h new_h : Permutation) (h0r : 0 ≤ r) (h1r : r < 1) (hne : old_h ≠ new_h) :
    c.hyp (i + 1) = saChoose (c.hyp i)
      ((c.hyp i).get_neighbor (c.draws i).1 (c.draws i).2.1)
      (accept_prob (c.delta i) (c.temp i)) ((c.draws i).2.2)
  ∧ (delta < 0 → accept_prob delta t = 1)
  ∧ (¬ delta < 0 → accept_prob delta t = Real.exp (-(delta / t)))
  ∧ (saChoose old_h new_h p r = new_h ↔ r < p)
  ∧ (delta < 0 → saChoose old_h new_h (accept_prob delta t) r = new_h) := by
  refine ⟨hyp_succ c i, ?_, ?_, ?_, ?_⟩
  · intro hd
    rw [accept_prob, if_pos hd]
  · intro hd
    rw [accept_prob, if_neg hd]
  · constructor
    · intro he
      by_contra hrp
      rw [saChoose, if_neg hrp] at he
      exact hne he
    · intro hrp
      rw [saChoose, if_pos hrp]
  · intro hd
    rw [accept_prob, if_pos hd, saChoose, if_pos h1r]

/-- Witness for `acceptance_rule` at iteration 0 of the degenerate
configuration, with `delta = -1`, `t = 1`, `p = r = 1/2` and two distinct
permutations. -/
theorem acceptance_rule_witness :
    (0 : ℝ) ≤ 1 / 2 ∧ (1 : ℝ) / 2 < 1 ∧ defaultPerm ≠ cycPerm ∧
    (cfgZero.hyp (0 + 1) = saChoose (cfgZero.hyp 0)
        ((cfgZero.hyp 0).get_neighbor (cfgZero.draws 0).1 (cfgZero.draws 0).2.1)
        (accept_prob (cfgZero.delta 0) (cfgZero.temp 0)) ((cfgZero.draws 0).2.2)
    ∧ ((-1 : ℝ) < 0 → accept_prob (-1) 1 = 1)
    ∧ (¬ (-1 : ℝ) < 0 → accept_prob (-1) 1 = Real.exp (-((-1) / 1)))
    ∧ (saChoose defaultPerm cycPerm (1 / 2) (1 / 2) = cycPerm ↔ (1 : ℝ) / 2 < 1 / 2)
    ∧ ((-1 : ℝ) < 0 → saChoose defaultPerm cycPerm (accept_prob (-1) 1) (1 / 2) = cycPerm)) := by
  have hne : defaultPerm ≠ cycPerm := by
    intro h
    exact absurd (congrArg (fun q => q.perm 'a') h) (by decide)
  exact ⟨by norm_num, by norm_num, hne,
    acceptance_rule cfgZero 0 (-1) 1 (1 / 2) (1 / 2) defaultPerm cycPerm
      (by norm_num) (by norm_num) hne⟩

/-- Invariant of the search loop: if every uphill proposal among the first
`k` iterations is rejected by its draw, the energy of the current
hypothesis never rises above the initial energy. -/
lemma energy_nonincreasing (c : SAConfig) (k : ℕ)
    (hrej : ∀ i < k, 0 ≤ c.delta i →
      Real.exp (-(c.delta i / c.temp i)) ≤ (c.draws i).2.2) :
    energyVal (c.hyp k) c.msg c.M ≤ energyVal (c.hyp 0) c.msg c.M := by
  induction k with
  | zero => exact le_refl _
  | succ n ih =>
    have ih2 := ih fun i hi hd => hrej i (Nat.lt_succ_of_lt hi) hd
    rw [hyp_succ]
    rcases lt_or_le (c.delta n) 0 with hd | hd
    · rw [saChoose]
      split_ifs with hr
      · have hne : energyVal ((c.hyp n).get_neighbor (c.draws n).1 (c.draws n).2.1)
            c.msg c.M = energyVal (c.hyp n) c.msg c.M + c.delta n := by
          rw [SAConfig.delta]
          ring
        rw [hne]
        linarith
      · exact ih2
    · have hp := hrej n (Nat.lt_succ_self n) hd
      have hnlt : ¬ ((c.draws n).2.2 < accept_prob (c.delta n) (c.temp n)) := by
        rw [accept_prob, if_neg (not_lt.mpr hd)]
        exact not_lt.mpr hp
      rw [saChoose, if_neg hnlt]
      exact ih2

/-- C8 (amended): strictly improving proposals are always accepted, but an
uphill proposal is also accepted whenever the draw `r` falls below
`exp(-delta/t)`, so a run can return a worse-than-start permutation (see
the counterexample); what does hold: on a nonempty ciphertext, whenever
every uphill proposal of the run is rejected by its draw, the returned
permutation's energy is at most the initial permutation's energy. -/
theorem run_no_worse_when_uphill_rejected (c : SAConfig) (hmsg : c.msg ≠ [])
    (hrej : ∀ i < c.steps, 0 ≤ c.delta i →
      Real.exp (-(c.delta i / c.temp i)) ≤ (c.draws i).2.2) :
    c.run.get_energy c.msg c.M = some (energyVal c.run c.msg c.M)
  ∧ c.h0.get_energy c.msg c.M = some (energyVal c.h0 c.msg c.M)
  ∧ energyVal c.run c.msg c.M ≤ energyVal c.h0 c.msg c.M := by
  refine ⟨get_energy_eq_energyVal _ _ _ hmsg, get_energy_eq_energyVal _ _ _ hmsg, ?_⟩
  exact energy_nonincreasing c c.steps hrej

/-- Witness for `run_no_worse_when_uphill_rejected`: the degenerate
configuration whose loop executes zero iterations. -/
theorem run_no_worse_when_uphill_rejected_witness :
    cfgZero.msg ≠ [] ∧
    (cfgZero.run.get_energy cfgZero.msg cfgZero.M =
        some (energyVal cfgZero.run cfgZero.msg cfgZero.M)
  ∧ cfgZero.h0.get_energy cfgZero.msg cfgZero.M =
        some (energyVal cfgZero.h0 cfgZero.msg cfgZero.M)
  ∧ energyVal cfgZero.run cfgZero.msg cfgZero.M ≤
        energyVal cfgZero.h0 cfgZero.msg cfgZero.M) := by
  have hmsg : cfgZero.msg ≠ [] := by simp [cfgZero]
  have hsteps : cfgZero.steps = 0 := by
    rw [SAConfig.steps, coolingSteps]
    apply Nat.sInf_eq_zero.mpr
    left
    show cfgZero.init * cfgZero.rate ^ 0 ≤ cfgZero.thr
    norm_num [cfgZero]
  refine ⟨hmsg, run_no_worse_when_uphill_rejected cfgZero hmsg ?_⟩
  intro i hi
  rw [hsteps] at hi
  exact absurd hi (Nat.not_lt_zero i)

/-- Energy of the identity start on the message `a` under `LMaa`. -/
lemma energyVal_default_cfgWorse :
    energyVal defaultPerm ['a'] LMaa = -(Real.logb 2 ((3 : ℝ) / 40)) := by
  have htr : defaultPerm.translate ['a'] = ['a'] := by decide
  rw [energyVal, htr]
  show -(LMaa.get_mle_unigram 'a') - bigramLoop LMaa 'a' [] = _
  rw [get_mle_unigram_val LMaa 'a' 2 2 38 (by decide) (by decide) (by decide)]
  norm_num [bigramLoop]

/-- Energy of the proposed neighbor (images of `a`, `b` swapped) on the
message `a` under `LMaa`. -/
lemma energyVal_neighbor_cfgWorse :
    energyVal (defaultPerm.get_neighbor 'a' 'b') ['a'] LMaa =
      -(Real.logb 2 ((1 : ℝ) / 40)) := by
  have htr : (defaultPerm.get_neighbor 'a' 'b').translate ['a'] = ['b'] := by decide
  rw [energyVal, htr]
  show -(LMaa.get_mle_unigram 'b') - bigramLoop LMaa 'b' [] = _
  rw [get_mle_unigram_val LMaa 'b' 0 2 38 (by decide) (by decide) (by decide)]
  norm_num [bigramLoop]

/-- The worse-than-start configuration executes exactly one iteration. -/
lemma cfgWorse_steps : cfgWorse.steps = 1 := by
  rw [SAConfig.steps, coolingSteps]
  have hmem1 : (1 : ℕ) ∈ {k : ℕ | cfgWorse.init * cfgWorse.rate ^ k ≤ cfgWorse.thr} := by
    show cfgWorse.init * cfgWorse.rate ^ 1 ≤ cfgWorse.thr
    norm_num [cfgWorse]
  apply Nat.le_antisymm
  · exact Nat.sInf_le hmem1
  · rcases Nat.eq_zero_or_pos (sInf {k : ℕ | cfgWorse.init * cfgWorse.rate ^ k ≤ cfgWorse.thr})
      with h | h
    · exfalso
      rcases Nat.sInf_eq_zero.mp h with h0 | hempty
      · have : cfgWorse.init * cfgWorse.rate ^ 0 ≤ cfgWorse.thr := h0
        rw [show cfgWorse.init = (2 : ℝ) from rfl, show cfgWorse.thr = (1 : ℝ) from rfl] at this
        norm_num at this
      · rw [hempty] at hmem1
        exact Set.not_mem_empty _ hmem1
    · exact h

/-- The single iteration of the worse-than-start run accepts the uphill
neighbor, because the acceptance draw is 0 and the Metropolis probability
is strictly positive. -/
lemma cfgWorse_run :
    cfgWorse.run = defaultPerm.get_neighbor 'a' 'b' := by
  have h1 : cfgWorse.run = cfgWorse.hyp cfgWorse.steps := rfl
  rw [h1, cfgWorse_steps, hyp_succ cfgWorse 0]
  show saChoose defaultPerm (defaultPerm.get_neighbor 'a' 'b')
      (accept_prob (cfgWorse.delta 0) (cfgWorse.temp 0)) 0 = _
  have hpos : (0 : ℝ) < accept_prob (cfgWorse.delta 0) (cfgWorse.temp 0) := by
    rw [accept_prob]
    split_ifs
    · norm_num
    · exact Real.exp_pos _
  rw [saChoose, if_pos hpos]

/-- Counterexample to C8 as stated: a full run of the search (initial
temperature 2, threshold 1, cooling rate 1/2, so exactly one iteration)
on the ciphertext `a` with the model trained on `aa`, where the only
proposal swaps the images of `a` and `b` (an uphill move) and the
acceptance draw is 0, returns a permutation whose energy on the ciphertext
is strictly greater than the identity start's energy. -/
theorem run_worse_than_start_cex :
    cfgWorse.run.get_energy cfgWorse.msg cfgWorse.M = some (-(Real.logb 2 ((1 : ℝ) / 40)))
  ∧ cfgWorse.h0.get_energy cfgWorse.msg cfgWorse.M = some (-(Real.logb 2 ((3 : ℝ) / 40)))
  ∧ -(Real.logb 2 ((3 : ℝ) / 40)) < -(Real.logb 2 ((1 : ℝ) / 40)) := by
  have hmsg : cfgWorse.msg ≠ [] := by simp [cfgWorse]
  refine ⟨?_, ?_, ?_⟩
  · show cfgWorse.run.get_energy ['a'] LMaa = _
    rw [cfgWorse_run, get_energy_eq_energyVal _ _ _ (by simp), energyVal_neighbor_cfgWorse]
  · show defaultPerm.get_energy ['a'] LMaa = _
    rw [get_energy_eq_energyVal _ _ _ (by simp), energyVal_default_cfgWorse]
  · have h := Real.logb_lt_logb one_lt_two (show (0 : ℝ) < 1 / 40 by norm_num)
      (show (1 : ℝ) / 40 < 3 / 40 by norm_num)
    linarith
